import Mathlib

/-!
Verification of the trajectory distance measures (Fréchet / Hausdorff).

Shallow embedding of the two headers of the repository:

* `Hausdorff.hpp` — `hausdorffDistance`: randomized, early-terminating
  directed Hausdorff distance;
* `Frechet.hpp` — `distanceMetric`, `computeDistanceMatrix`,
  `computeFrechetMatrix`, `frechetDistance`: the banded discrete Fréchet
  distance of Devogele et al. (2017).

Modelling conventions, chosen once for the whole file:

* The C++ code is templated over a numeric scalar `T`; the model is
  parametrized over a `LinearOrderedCommRing` (the only operations the
  algorithms perform on distances are `+`, `-`, `*`, order comparison,
  `min`/`max` and one final `std::sqrt`).  Universal statements are proved
  at this generality (so in particular over `ℚ`); concrete executions are
  evaluated over `ℤ`.
* `Real.sqrt` is strictly monotone on nonnegatives with `√x = 0 ↔ x = 0`
  for `x ≥ 0`, so the development carries the exact *squared* distances
  and applies `Real.sqrt` at the boundary where the C++ value is returned
  (`distanceMetric`, `hausdorffDistance`).
* Matrices (`std::vector<std::vector<T>>`, zero-initialized, written only
  in-range by the algorithm on the inputs the claims quantify over) are
  total functions `ℕ → ℕ → _` that start constantly `0`; a C++
  out-of-bounds *read* of such a vector is modelled as reading `0`, and the
  one loop that can run past a row end forever under that reading
  (`while (distanceMatrix[i][j] == 0) j++;` in `computeFrechetMatrix`) is
  modelled by a fuelled search that returns `none` when no nonzero cell
  exists — the C++ there never reaches a result (out-of-bounds, undefined).
* An uninitialized C++ local read (`T d;` in the upper-right loop of
  `computeDistanceMatrix`) is modelled as `0`; the lemmas about that loop
  hold for every value of the uninitialized variable, because the loop
  guard `j < jMin` is decided independently of `d`.
* The `std::numeric_limits<T>::max() - 1` sentinel of
  `computeFrechetMatrix`, which dominates every representable distance, is
  modelled as `none : Option α` with `optMin`/`optMaxD` mirroring how the
  code combines it with `std::min`/`std::max`.
* `frechetDistance` takes its trajectories by mutable reference and
  `computeDistanceMatrix` may `std::swap` them; the model returns the
  post-call pair of trajectories alongside the result.
-/

/-- A point: one `std::vector<T>` of coordinates. -/
abbrev Pt (α : Type) := List α

variable {α : Type} [LinearOrderedCommRing α]

/-- The squared-distance loop shared by `distanceMetric` (`Frechet.hpp`) and
the inner loop of `hausdorffDistance` (`Hausdorff.hpp`):
`for (idx = 0; idx < a.size(); ++idx) sum += (a[idx]-b[idx])*(a[idx]-b[idx])`.
The loop runs over the *first* point's size; a read `b[idx]` past `b`'s end
is out of bounds in C++ and is modelled as reading `0`. -/
def sqDistM (a b : Pt α) : α :=
  (List.range a.length).foldl
    (fun s idx => s + (a.getD idx 0 - b.getD idx 0) * (a.getD idx 0 - b.getD idx 0)) 0

/-- `distanceMetric` of `Frechet.hpp`: `std::sqrt` of the squared sum. -/
noncomputable def distanceMetric (a b : Pt ℚ) : ℝ :=
  Real.sqrt ((sqDistM a b : ℚ) : ℝ)

/-- Point update of a matrix represented as a total function. -/
def updG {β : Type} (f : ℕ → ℕ → β) (i j : ℕ) (v : β) : ℕ → ℕ → β :=
  fun a b => if a = i ∧ b = j then v else f a b

/-- `cMin = d` guarded by `if (d < cMin)`, where `cMin` starts at
`std::numeric_limits<T>::infinity()` (modelled `none`). -/
def updMin : Option α → α → Option α
  | none, d => some d
  | some c, d => if d < c then some d else some c

/-- `std::min` where either side may be the `numeric_limits<T>::max() - 1`
sentinel (`none`), which every genuine distance is below. -/
def optMin : Option α → Option α → Option α
  | none, y => y
  | some a, none => some a
  | some a, some b => some (min a b)

/-- `std::max(minimum, d)` where `minimum` may be the sentinel (`none`):
the sentinel dominates every distance. -/
def optMaxD : Option α → α → Option α
  | none, _ => none
  | some a, d => some (max a d)

/-- Minimum of a list of scalars (`0` for the empty list; used only on
nonempty lists). -/
def listMin : List α → α
  | [] => 0
  | x :: xs => xs.foldl min x

/-- Maximum of a list of scalars (`0` for the empty list; used only on
nonempty lists). -/
def listMax : List α → α
  | [] => 0
  | x :: xs => xs.foldl max x

/-! ## The Hausdorff pipeline (`Hausdorff.hpp`) -/

/-- The inner loop of `hausdorffDistance` over the shuffled indices of `b`:
squared distance `d` to each candidate, `break` as soon as `d < cMax`
(second component `true`), otherwise fold the running minimum `cMin`. -/
def hInner (p : Pt α) (bs : List (Pt α)) (cMax : α) :
    List ℕ → Option α → Option α × Bool
  | [], cMin => (cMin, false)
  | ib :: rest, cMin =>
    let d := sqDistM p (bs.getD ib [])
    if d < cMax then (cMin, true)
    else hInner p bs cMax rest (updMin cMin d)

/-- One iteration of the outer loop of `hausdorffDistance`: run the inner
loop with `cMin = ∞`, then
`if (isfinite(cMin) && cMin >= cMax && !haveWeBroken) cMax = cMin`. -/
def hStep (a bs : List (Pt α)) (pb : List ℕ) (cMax : α) (ia : ℕ) : α :=
  match hInner (a.getD ia []) bs cMax pb none with
  | (some v, br) => if cMax ≤ v ∧ br = false then v else cMax
  | (none, _) => cMax

/-- `hausdorffDistance` up to the final `std::sqrt`: the empty-input check
(`throw std::runtime_error`) and the shuffled max-min loop.  The two
shuffled index sequences produced from the per-call random engine are
passed in as `pa`, `pb`. -/
def hausdorffSq (a bs : List (Pt α)) (pa pb : List ℕ) : Except String α :=
  if a = [] ∨ bs = [] then
    Except.error ("One of the vectors passed to hausdorffDistance is empty.")
  else
    Except.ok (pa.foldl (hStep a bs pb) 0)

/-- The value `hausdorffDistance` returns: `std::sqrt(cMax)`. -/
noncomputable def hausdorffDistance (a bs : List (Pt ℚ)) (pa pb : List ℕ) :
    Except String ℝ :=
  (hausdorffSq a bs pa pb).map (fun q => Real.sqrt ((q : ℚ) : ℝ))

/-- Specification-side definition, following §4.4 of the spec: the min over
the points of `bs` of the squared Euclidean distance to `p`. -/
def minDistSq (p : Pt α) (bs : List (Pt α)) : α :=
  listMin (bs.map (fun q => sqDistM p q))

/-- Specification-side definition: `max_{p ∈ a} min_{q ∈ b} sqDist p q`,
the squared directed Hausdorff value. -/
def dirHausdorffSq (a bs : List (Pt α)) : α :=
  listMax (a.map (fun p => minDistSq p bs))

/-! ## The banded distance matrix (`computeDistanceMatrix`, `Frechet.hpp`) -/

/-- The squared point distance between row point `i` of `L1` and column
point `j` of `L2`, as `distanceMetric(l1[i], l2[j])` reads them. -/
def sqd (L1 L2 : List (Pt α)) (i j : ℕ) : α :=
  sqDistM (L1.getD i []) (L2.getD j [])

/-- The in-place normalization at the top of `computeDistanceMatrix`:
`if (n < m) { std::swap(n, m); std::swap(l1, l2); }`. -/
def swapIf (l1 l2 : List (Pt α)) : List (Pt α) × List (Pt α) :=
  if l1.length < l2.length then (l2, l1) else (l1, l2)

/-- The `while` loop of the "upper-right matrix" pass, for row `i`:
`while ((j < m || d <= diagMax) && j < jMin) { d = dist(i,j); if (d < diagMax) { dm[i][j] = d; j++; } }`.
`d` enters the loop uninitialized; the caller passes `0` for it, and the
lemmas about this loop hold for every such value.  Structural fuel bounds
the recursion; the passes are entered with fuel that the proofs show is
never exhausted (the guard is false on entry at every row). -/
def urFill (m : ℕ) (diagMax : α) (sq : ℕ → ℕ → α) (i jMin : ℕ) :
    ℕ → (ℕ → ℕ → α) → ℕ → α → (ℕ → ℕ → α) × ℕ
  | 0, dm, j, _ => (dm, j)
  | fuel + 1, dm, j, d =>
    if (j < m ∨ d ≤ diagMax) ∧ j < jMin then
      let dd := sq i j
      if dd < diagMax then urFill m diagMax sq i jMin fuel (updG dm i j dd) (j + 1) dd
      else urFill m diagMax sq i jMin fuel dm j dd
    else (dm, j)

/-- The "upper-right matrix" pass: rows `i = 0 .. n-1`, each starting at
`j = i` with the running `jMin`, then `jMin = j`. -/
def urPass (n m : ℕ) (diagMax : α) (sq : ℕ → ℕ → α) (dm0 : ℕ → ℕ → α) :
    (ℕ → ℕ → α) × ℕ :=
  (List.range n).foldl
    (fun s i => urFill m diagMax sq i s.2 (m + s.2 + 1) s.1 i 0) (dm0, 0)

/-- The `do { ... } while` loop of the "lower left matrix" pass, for column
`j`: the body `d = dist(i,j); if (d < diagMax) { dm[i][j] = d; i++; }` runs
first, then the guard `(i < n || d <= diagMax) && (i < iMin)`. -/
def llFill (n : ℕ) (diagMax : α) (sq : ℕ → ℕ → α) (j iMin : ℕ) :
    ℕ → (ℕ → ℕ → α) → ℕ → (ℕ → ℕ → α) × ℕ
  | 0, dm, i => (dm, i)
  | fuel + 1, dm, i =>
    let d := sq i j
    let dm' := if d < diagMax then updG dm i j d else dm
    let i' := if d < diagMax then i + 1 else i
    if (i' < n ∨ d ≤ diagMax) ∧ i' < iMin then llFill n diagMax sq j iMin fuel dm' i'
    else (dm', i')

/-- The "lower left matrix" pass: columns `j = 0 .. m-1`, each starting at
`i = j` with the running `iMin`, then `iMin = i`. -/
def llPass (n m : ℕ) (diagMax : α) (sq : ℕ → ℕ → α) (dm0 : ℕ → ℕ → α) :
    (ℕ → ℕ → α) × ℕ :=
  (List.range m).foldl
    (fun s j => llFill n diagMax sq j s.2 (n + s.2 + 1) s.1 j) (dm0, 0)

/-- The body of `computeDistanceMatrix` after the swap: the two core
diagonal loops (each writes `dm[i][j] = dist(i,j)` and folds
`diagMax = max(dm[i][j], diagMax)`), the upper-right pass and the lower
left pass.  Returns the final matrix and `diagMax`. -/
def computeDistanceMatrixCore (L1 L2 : List (Pt α)) : ((ℕ → ℕ → α) × α) :=
  let n := L1.length
  let m := L2.length
  let q := n / m
  let r := n % m
  let s1 := (List.range (r * (q + 1) + 1)).foldl
    (fun s i =>
      (updG s.1 i (i / (q + 1)) (sqd L1 L2 i (i / (q + 1))),
       max (sqd L1 L2 i (i / (q + 1))) s.2))
    (fun _ _ => (0 : α), 0)
  let s2 := (List.range' (r * (q + 1)) (n - r * (q + 1))).foldl
    (fun s i =>
      (updG s.1 i ((i - r) / q) (sqd L1 L2 i ((i - r) / q)),
       max (sqd L1 L2 i ((i - r) / q)) s.2))
    s1
  let ur := urPass n m s2.2 (sqd L1 L2) s2.1
  let ll := llPass n m s2.2 (sqd L1 L2) ur.1
  (ll.1, s2.2)

/-- `computeDistanceMatrix`: swaps the trajectories when the first is
shorter, fills the matrix, returns `diagMax`.  The first component is the
post-call contents of the two by-reference trajectory arguments. -/
def computeDistanceMatrix (l1 l2 : List (Pt α)) :
    (List (Pt α) × List (Pt α)) × ((ℕ → ℕ → α) × α) :=
  let p := swapIf l1 l2
  (p, computeDistanceMatrixCore p.1 p.2)

/-- The index the core diagonal pairs with row `i`: `j = i / (q+1)` for
`i ≤ r(q+1)` (first loop), `j = (i-r) / q` beyond (second loop; both give
`r` at the shared boundary `i = r(q+1)`). -/
def coreJ (q r i : ℕ) : ℕ := if i ≤ r * (q + 1) then i / (q + 1) else (i - r) / q

/-! ## The Fréchet coupling matrix (`computeFrechetMatrix`, `Frechet.hpp`) -/

/-- The `minimum` computation for cell `(i, j)`: start from the
`numeric_limits<T>::max() - 1` sentinel (`none`), assign
`frechetMatrix[i-1][j-1]` when that distance cell is nonzero, then
`std::min` with the other two predecessors whose distance cells are
nonzero. -/
def minPredD (dMat : ℕ → ℕ → α) (fm : ℕ → ℕ → Option α) (i j : ℕ) : Option α :=
  let m1 := if 0 < i ∧ 0 < j ∧ dMat (i - 1) (j - 1) ≠ 0 then fm (i - 1) (j - 1) else none
  let m2 := if 0 < i ∧ dMat (i - 1) j ≠ 0 then optMin m1 (fm (i - 1) j) else m1
  if 0 < j ∧ dMat i (j - 1) ≠ 0 then optMin m2 (fm i (j - 1)) else m2

/-- The leading-zero skip `while (distanceMatrix[i][j] == 0) j++;` of row
`i`, started at the previous `jMin`.  Under the total-function reading of
the matrix every out-of-row cell is `0`, so when the row has no nonzero
cell at or after `jMin` the C++ loop never terminates inside the row
(out-of-bounds, undefined): the fuelled search returns `none` there. -/
def skipZeros (dMat : ℕ → ℕ → α) (i : ℕ) : ℕ → ℕ → Option ℕ
  | _, 0 => none
  | j, fuel + 1 => if dMat i j = 0 then skipZeros dMat i (j + 1) fuel else some j

/-- The fill loop of row `i`:
`while (distanceMatrix[i][j] != 0 && j < m) { ... frechetMatrix[i][j] = max(minimum, distanceMatrix[i][j]); j++; }`.
Also records the visited cells (ghost output used by the statements; it
does not influence the matrix). -/
def fillRow (dMat : ℕ → ℕ → α) (m i : ℕ) :
    ℕ → (ℕ → ℕ → Option α) → ℕ → List (ℕ × ℕ) →
    (ℕ → ℕ → Option α) × ℕ × List (ℕ × ℕ)
  | 0, fm, j, vis => (fm, j, vis)
  | fuel + 1, fm, j, vis =>
    if dMat i j ≠ 0 ∧ j < m then
      fillRow dMat m i fuel
        (updG fm i j (optMaxD (minPredD dMat fm i j) (dMat i j))) (j + 1)
        (vis ++ [(i, j)])
    else (fm, j, vis)

/-- One outer iteration of `computeFrechetMatrix` (row `i ≥ 1`): skip the
leading zero cells from `jMin`, set `jMin` to the first nonzero column,
fill the row. -/
def frowStep (dMat : ℕ → ℕ → α) (m : ℕ)
    (acc : Option ((ℕ → ℕ → Option α) × ℕ × List (ℕ × ℕ))) (i : ℕ) :
    Option ((ℕ → ℕ → Option α) × ℕ × List (ℕ × ℕ)) :=
  match acc with
  | none => none
  | some (fm, jMin, vis) =>
    match skipZeros dMat i jMin (m + 1) with
    | none => none
    | some j =>
      let r := fillRow dMat m i (m + 1) fm j vis
      some (r.1, j, r.2.2)

/-- The body of `computeFrechetMatrix` after `computeDistanceMatrix` has
run on (already swapped) `L1`, `L2`: a zero-initialized `n × m` matrix,
`frechetMatrix[0][0] = distanceMatrix[0][0]`, then rows `1 .. n-1`.
`none` when some row scan never finds a nonzero cell (the C++ runs out of
the row there).  The visited-cell list is ghost output. -/
def frechetCore (L1 L2 : List (Pt α)) :
    Option ((ℕ → ℕ → Option α) × List (ℕ × ℕ)) :=
  let dMat := (computeDistanceMatrixCore L1 L2).1
  let fm0 := updG (fun _ _ => some (0 : α)) 0 0 (some (dMat 0 0))
  ((List.range' 1 (L1.length - 1)).foldl (frowStep dMat L2.length)
      (some (fm0, 0, []))).map (fun s => (s.1, s.2.2))

/-- `computeFrechetMatrix`: swap (inside `computeDistanceMatrix`), then the
coupling sweep.  The first component is the post-call contents of the two
by-reference trajectory arguments. -/
def computeFrechetMatrixG (l1 l2 : List (Pt α)) :
    (List (Pt α) × List (Pt α)) × Option ((ℕ → ℕ → Option α) × List (ℕ × ℕ)) :=
  let p := swapIf l1 l2
  (p, frechetCore p.1 p.2)

/-- `frechetDistance`: computes the coupling matrix and returns
`frechetMatrix[l1.size()-1][l2.size()-1]`, the sizes read after any swap.
The scalar is `some` sentinel-or-value; the outer `Option` is `none` when
the sweep runs out of a row (undefined in the C++). -/
def frechetDistance (l1 l2 : List (Pt α)) :
    (List (Pt α) × List (Pt α)) × Option (Option α) :=
  let r := computeFrechetMatrixG l1 l2
  (r.1, r.2.map (fun s => s.1 (r.1.1.length - 1) (r.1.2.length - 1)))

/-! ## Generic lemmas about folds, list extrema and indexed access -/

theorem foldl_congr_fn {γ β : Type} (f g : γ → β → γ) (L : List β)
    (h : ∀ acc x, x ∈ L → f acc x = g acc x) :
    ∀ c, L.foldl f c = L.foldl g c := by
  induction L with
  | nil => intro c; rfl
  | cons x xs ih =>
    intro c
    simp only [List.foldl_cons]
    rw [h c x (List.mem_cons_self x xs)]
    exact ih (fun acc y hy => h acc y (List.mem_cons_of_mem x hy)) _

theorem foldl_pair_split {γ β : Type} (f : γ → ℕ → γ) (g : β → ℕ → β)
    (L : List ℕ) : ∀ (a : γ) (b : β),
    L.foldl (fun s i => (f s.1 i, g s.2 i)) (a, b) = (L.foldl f a, L.foldl g b) := by
  induction L with
  | nil => intro a b; rfl
  | cons x xs ih => intro a b; simpa using ih (f a x) (g b x)

theorem getD_mem_of_lt {β : Type} (d : β) :
    ∀ (l : List β) (j : ℕ), j < l.length → l.getD j d ∈ l := by
  intro l
  induction l with
  | nil => intro j h; simp at h
  | cons x xs ih =>
    intro j h
    cases j with
    | zero => simp
    | succ j' =>
      simp only [List.getD_cons_succ]
      exact List.mem_cons_of_mem x (ih j' (by simpa using h))

theorem mem_imp_getD {β : Type} (d : β) :
    ∀ (l : List β) (x : β), x ∈ l → ∃ j, j < l.length ∧ l.getD j d = x := by
  intro l
  induction l with
  | nil => intro x h; simp at h
  | cons y ys ih =>
    intro x h
    rcases List.mem_cons.mp h with h1 | h2
    · exact ⟨0, by simp, by simp [h1]⟩
    · obtain ⟨j, hj, he⟩ := ih x h2
      exact ⟨j + 1, by simpa using hj, by simpa using he⟩

theorem foldl_min_le_mem :
    ∀ (L : List α) (c x : α), x ∈ L → L.foldl min c ≤ x := by
  intro L
  induction L with
  | nil => intro c x h; simp at h
  | cons y ys ih =>
    intro c x h
    rcases List.mem_cons.mp h with h1 | h2
    · subst h1
      calc ys.foldl min (min c x) ≤ min c x := by
            clear ih h
            induction ys generalizing c x with
            | nil => simp
            | cons z zs ihz =>
              simp only [List.foldl_cons]
              exact le_trans (ihz (min c x) z) (min_le_left _ _)
        _ ≤ x := min_le_right _ _
    · exact ih (min c y) x h2

theorem foldl_min_le_init :
    ∀ (L : List α) (c : α), L.foldl min c ≤ c := by
  intro L
  induction L with
  | nil => intro c; simp
  | cons y ys ih =>
    intro c
    exact le_trans (ih (min c y)) (min_le_left _ _)

theorem foldl_min_attained :
    ∀ (L : List α) (c : α), L.foldl min c = c ∨ L.foldl min c ∈ L := by
  intro L
  induction L with
  | nil => intro c; exact Or.inl rfl
  | cons y ys ih =>
    intro c
    rcases ih (min c y) with h | h
    · rw [List.foldl_cons, h]
      rcases le_total c y with hc | hc
      · exact Or.inl (min_eq_left hc)
      · exact Or.inr (by simp [min_eq_right hc])
    · exact Or.inr (List.mem_cons_of_mem y h)

theorem foldl_max_ge_init :
    ∀ (L : List α) (c : α), c ≤ L.foldl max c := by
  intro L
  induction L with
  | nil => intro c; simp
  | cons y ys ih =>
    intro c
    exact le_trans (le_max_left c y) (ih (max c y))

theorem foldl_max_ge_mem :
    ∀ (L : List α) (c x : α), x ∈ L → x ≤ L.foldl max c := by
  intro L
  induction L with
  | nil => intro c x h; simp at h
  | cons y ys ih =>
    intro c x h
    rcases List.mem_cons.mp h with h1 | h2
    · subst h1
      exact le_trans (le_max_right c x) (foldl_max_ge_init ys (max c x))
    · exact ih (max c y) x h2

theorem foldl_max_attained :
    ∀ (L : List α) (c : α), L.foldl max c = c ∨ L.foldl max c ∈ L := by
  intro L
  induction L with
  | nil => intro c; exact Or.inl rfl
  | cons y ys ih =>
    intro c
    rcases ih (max c y) with h | h
    · rw [List.foldl_cons, h]
      rcases le_total c y with hc | hc
      · exact Or.inr (by simp [max_eq_right hc])
      · exact Or.inl (max_eq_left hc)
    · exact Or.inr (List.mem_cons_of_mem y h)

theorem listMin_le (L : List α) (x : α) (h : x ∈ L) : listMin L ≤ x := by
  cases L with
  | nil => simp at h
  | cons y ys =>
    rcases List.mem_cons.mp h with h1 | h2
    · subst h1; exact foldl_min_le_init ys x
    · exact foldl_min_le_mem ys y x h2

theorem listMin_mem (L : List α) (h : L ≠ []) : listMin L ∈ L := by
  cases L with
  | nil => exact absurd rfl h
  | cons y ys =>
    rcases foldl_min_attained ys y with h1 | h1
    · simp [listMin, h1]
    · exact List.mem_cons_of_mem y (by simpa [listMin] using h1)

theorem le_listMax (L : List α) (x : α) (h : x ∈ L) : x ≤ listMax L := by
  cases L with
  | nil => simp at h
  | cons y ys =>
    rcases List.mem_cons.mp h with h1 | h2
    · subst h1; exact foldl_max_ge_init ys x
    · exact foldl_max_ge_mem ys y _ h2

theorem listMax_mem (L : List α) (h : L ≠ []) : listMax L ∈ L := by
  cases L with
  | nil => exact absurd rfl h
  | cons y ys =>
    rcases foldl_max_attained ys y with h1 | h1
    · simp [listMax, h1]
    · exact List.mem_cons_of_mem y (by simpa [listMax] using h1)

theorem foldl_maxg_ge_init (g : ℕ → α) :
    ∀ (L : List ℕ) (c : α), c ≤ L.foldl (fun s i => max s (g i)) c := by
  intro L
  induction L with
  | nil => intro c; simp
  | cons y ys ih =>
    intro c
    exact le_trans (le_max_left c (g y)) (ih (max c (g y)))

theorem foldl_maxg_ge_mem (g : ℕ → α) :
    ∀ (L : List ℕ) (c : α) (i : ℕ), i ∈ L →
      g i ≤ L.foldl (fun s i => max s (g i)) c := by
  intro L
  induction L with
  | nil => intro c i h; simp at h
  | cons y ys ih =>
    intro c i h
    rcases List.mem_cons.mp h with h1 | h2
    · subst h1
      exact le_trans (le_max_right c (g i)) (foldl_maxg_ge_init g ys (max c (g i)))
    · exact ih (max c (g y)) i h2

theorem foldl_maxg_attained (g : ℕ → α) :
    ∀ (L : List ℕ) (c : α),
      L.foldl (fun s i => max s (g i)) c = c ∨
      ∃ i ∈ L, L.foldl (fun s i => max s (g i)) c = g i := by
  intro L
  induction L with
  | nil => intro c; exact Or.inl rfl
  | cons y ys ih =>
    intro c
    rcases ih (max c (g y)) with h | h
    · rw [List.foldl_cons, h]
      rcases le_total c (g y) with hc | hc
      · exact Or.inr ⟨y, List.mem_cons_self y ys, max_eq_right hc⟩
      · exact Or.inl (max_eq_left hc)
    · obtain ⟨i, hi, he⟩ := h
      exact Or.inr ⟨i, List.mem_cons_of_mem y hi, he⟩

/-! ## Correctness of the Hausdorff pipeline -/

theorem foldl_add_sq_ge (g : ℕ → α) :
    ∀ (L : List ℕ) (c : α), c ≤ L.foldl (fun s i => s + g i * g i) c := by
  intro L
  induction L with
  | nil => intro c; simp
  | cons x xs ih =>
    intro c
    exact le_trans (le_add_of_nonneg_right (mul_self_nonneg (g x))) (ih (c + g x * g x))

theorem sqDistM_nonneg (a b : Pt α) : 0 ≤ sqDistM a b :=
  foldl_add_sq_ge (fun idx => a.getD idx 0 - b.getD idx 0) (List.range a.length) 0

theorem sqDistM_symm (a b : Pt α) (h : a.length = b.length) :
    sqDistM a b = sqDistM b a := by
  unfold sqDistM
  rw [h]
  exact foldl_congr_fn _ _ _ (fun acc x _ => by ring) 0

theorem minDistSq_nonneg (p : Pt α) (bs : List (Pt α)) : 0 ≤ minDistSq p bs := by
  unfold minDistSq
  cases bs with
  | nil => simp [listMin]
  | cons b bs' =>
    have hne : (b :: bs').map (fun q => sqDistM p q) ≠ [] := by simp
    obtain hm := listMin_mem _ hne
    obtain ⟨q, _, he⟩ := List.mem_map.mp hm
    rw [← he]
    exact sqDistM_nonneg p q

theorem hInner_break_iff (p : Pt α) (bs : List (Pt α)) (cMax : α) :
    ∀ (pb : List ℕ) (c0 : Option α),
      (hInner p bs cMax pb c0).2 = true ↔
        ∃ ib ∈ pb, sqDistM p (bs.getD ib []) < cMax := by
  intro pb
  induction pb with
  | nil => intro c0; simp [hInner]
  | cons ib rest ih =>
    intro c0
    by_cases hd : sqDistM p (bs.getD ib []) < cMax
    · simp only [hInner]
      rw [if_pos hd]
      exact iff_of_true rfl ⟨ib, List.mem_cons_self ib rest, hd⟩
    · simp only [hInner]
      rw [if_neg hd]
      rw [ih (updMin c0 (sqDistM p (bs.getD ib [])))]
      constructor
      · rintro ⟨x, hx, hlt⟩; exact ⟨x, List.mem_cons_of_mem ib hx, hlt⟩
      · rintro ⟨x, hx, hlt⟩
        rcases List.mem_cons.mp hx with h1 | h2
        · exact absurd (h1 ▸ hlt) hd
        · exact ⟨x, h2, hlt⟩

theorem hInner_fst_of_no_break (p : Pt α) (bs : List (Pt α)) (cMax : α) :
    ∀ (pb : List ℕ) (c0 : Option α),
      (∀ ib ∈ pb, ¬ sqDistM p (bs.getD ib []) < cMax) →
      (hInner p bs cMax pb c0).1 =
        pb.foldl (fun c ib => updMin c (sqDistM p (bs.getD ib []))) c0 := by
  intro pb
  induction pb with
  | nil => intro c0 _; rfl
  | cons ib rest ih =>
    intro c0 h
    have hd := h ib (List.mem_cons_self ib rest)
    simp only [hInner, hd, if_false, List.foldl_cons]
    exact ih _ (fun x hx => h x (List.mem_cons_of_mem ib hx))

theorem foldl_updMin_ne_none (f : ℕ → α) :
    ∀ (pb : List ℕ) (c0 : Option α), c0 ≠ none ∨ pb ≠ [] →
      pb.foldl (fun c ib => updMin c (f ib)) c0 ≠ none := by
  intro pb
  induction pb with
  | nil =>
    intro c0 h
    rcases h with h | h
    · exact h
    · exact absurd rfl h
  | cons ib rest ih =>
    intro c0 _
    rw [List.foldl_cons]
    apply ih
    left
    cases c0 with
    | none => simp [updMin]
    | some c =>
      simp only [updMin]
      by_cases hc : f ib < c
      · simp [hc]
      · simp [hc]

theorem foldl_updMin_le (f : ℕ → α) :
    ∀ (pb : List ℕ) (c0 : Option α) (v : α),
      pb.foldl (fun c ib => updMin c (f ib)) c0 = some v →
      (∀ ib ∈ pb, v ≤ f ib) ∧ (∀ w, c0 = some w → v ≤ w) := by
  intro pb
  induction pb with
  | nil =>
    intro c0 v h
    rw [List.foldl_nil] at h
    subst h
    refine ⟨by simp, fun w hw => le_of_eq ?_⟩
    exact Option.some_inj.mp hw
  | cons ib rest ih =>
    intro c0 v h
    rw [List.foldl_cons] at h
    obtain ⟨h1, h2⟩ := ih (updMin c0 (f ib)) v h
    have hb : v ≤ f ib := by
      cases c0 with
      | none => exact h2 (f ib) rfl
      | some c =>
        simp only [updMin] at h2
        by_cases hc : f ib < c
        · exact h2 (f ib) (by simp [hc])
        · exact le_trans (h2 c (by simp [hc])) (not_lt.mp hc)
    refine ⟨fun x hx => ?_, fun w hw => ?_⟩
    · rcases List.mem_cons.mp hx with he | hm
      · exact he ▸ hb
      · exact h1 x hm
    · subst hw
      simp only [updMin] at h2
      by_cases hc : f ib < w
      · exact le_trans (h2 (f ib) (by simp [hc])) (le_of_lt hc)
      · exact h2 w (by simp [hc])

theorem foldl_updMin_attained (f : ℕ → α) :
    ∀ (pb : List ℕ) (c0 : Option α),
      pb.foldl (fun c ib => updMin c (f ib)) c0 = c0 ∨
      ∃ ib ∈ pb, pb.foldl (fun c ib => updMin c (f ib)) c0 = some (f ib) := by
  intro pb
  induction pb with
  | nil => intro c0; exact Or.inl rfl
  | cons ib rest ih =>
    intro c0
    rw [List.foldl_cons]
    rcases ih (updMin c0 (f ib)) with h | h
    · rw [h]
      cases c0 with
      | none => exact Or.inr ⟨ib, List.mem_cons_self ib rest, rfl⟩
      | some c =>
        simp only [updMin]
        by_cases hc : f ib < c
        · exact Or.inr ⟨ib, List.mem_cons_self ib rest, by simp [hc]⟩
        · exact Or.inl (by simp [hc])
    · obtain ⟨x, hx, he⟩ := h
      exact Or.inr ⟨x, List.mem_cons_of_mem ib hx, he⟩

theorem hStep_eq_max (a bs : List (Pt α)) (pb : List ℕ) (hb : bs ≠ [])
    (hpb : ∀ j, j ∈ pb ↔ j < bs.length) (cMax : α) (ia : ℕ) :
    hStep a bs pb cMax ia = max cMax (minDistSq (a.getD ia []) bs) := by
  set p := a.getD ia [] with hp
  by_cases hbr : ∃ ib ∈ pb, sqDistM p (bs.getD ib []) < cMax
  · -- the inner loop breaks: this point cannot raise cMax
    obtain ⟨ib0, hib0, hlt⟩ := hbr
    have hmle : minDistSq p bs ≤ sqDistM p (bs.getD ib0 []) := by
      apply listMin_le
      exact List.mem_map.mpr ⟨bs.getD ib0 [], getD_mem_of_lt [] bs ib0 ((hpb ib0).mp hib0), rfl⟩
    have hmax : max cMax (minDistSq p bs) = cMax :=
      max_eq_left (le_of_lt (lt_of_le_of_lt hmle hlt))
    have hbrk : (hInner p bs cMax pb none).2 = true :=
      (hInner_break_iff p bs cMax pb none).mpr ⟨ib0, hib0, hlt⟩
    rw [hmax]
    unfold hStep
    rcases he : hInner p bs cMax pb none with ⟨cm, br⟩
    rw [he] at hbrk
    simp only at hbrk
    subst hbrk
    cases cm with
    | none => rfl
    | some v => simp
  · -- no break: the full minimum is computed and cMax is raised to it
    push_neg at hbr
    have hnobrk : (hInner p bs cMax pb none).2 = false := by
      rcases hsnd : (hInner p bs cMax pb none).2 with _ | _
      · rfl
      · obtain ⟨ib, hib, hlt⟩ := (hInner_break_iff p bs cMax pb none).mp hsnd
        exact absurd hlt (not_lt.mpr (hbr ib hib))
    have hfst := hInner_fst_of_no_break p bs cMax pb none
      (fun ib hib => not_lt.mpr (hbr ib hib))
    have hpbne : pb ≠ [] := by
      have h0 : 0 ∈ pb := (hpb 0).mpr (List.length_pos.mpr hb)
      intro he; rw [he] at h0; simp at h0
    have hnn := foldl_updMin_ne_none (fun ib => sqDistM p (bs.getD ib [])) pb none
      (Or.inr hpbne)
    rcases hsome : pb.foldl (fun c ib => updMin c (sqDistM p (bs.getD ib []))) none with
      _ | v
    · exact absurd hsome hnn
    · obtain ⟨hlb, _⟩ := foldl_updMin_le _ pb none v hsome
      have hatt := foldl_updMin_attained (fun ib => sqDistM p (bs.getD ib [])) pb none
      rcases hatt with h | h
      · rw [hsome] at h; exact absurd h (by simp)
      obtain ⟨ib0, hib0, he0⟩ := h
      rw [hsome] at he0
      have hv0 : v = sqDistM p (bs.getD ib0 []) := by simpa using he0
      -- v equals the specified minimum over b
      have hvm : v = minDistSq p bs := by
        apply le_antisymm
        · obtain hmm := listMin_mem (bs.map (fun q => sqDistM p q)) (by simpa using hb)
          obtain ⟨q0, hq0, heq0⟩ := List.mem_map.mp hmm
          obtain ⟨j0, hj0, hgd⟩ := mem_imp_getD [] bs q0 hq0
          have : v ≤ sqDistM p (bs.getD j0 []) := hlb j0 ((hpb j0).mpr hj0)
          rw [hgd] at this
          unfold minDistSq
          rw [← heq0]
          exact this
        · apply listMin_le
          rw [hv0]
          exact List.mem_map.mpr
            ⟨bs.getD ib0 [], getD_mem_of_lt [] bs ib0 ((hpb ib0).mp hib0), rfl⟩
      have hcle : cMax ≤ v := hv0 ▸ hbr ib0 hib0
      unfold hStep
      rcases he : hInner p bs cMax pb none with ⟨cm, br⟩
      rw [he] at hnobrk hfst
      simp only at hnobrk hfst
      subst hnobrk
      rw [hfst, hsome]
      simp only [hcle, and_self, if_true, true_and, if_pos rfl]
      rw [hvm]
      exact (max_eq_right (hvm ▸ hcle)).symm

theorem hausdorffSq_eq_spec (a bs : List (Pt α)) (pa pb : List ℕ)
    (ha : a ≠ []) (hb : bs ≠ [])
    (hpa : ∀ i, i ∈ pa ↔ i < a.length) (hpb : ∀ j, j ∈ pb ↔ j < bs.length) :
    hausdorffSq a bs pa pb = Except.ok (dirHausdorffSq a bs) := by
  unfold hausdorffSq
  rw [if_neg (by simp [ha, hb])]
  congr 1
  have hfold : pa.foldl (hStep a bs pb) 0 =
      pa.foldl (fun c ia => max c (minDistSq (a.getD ia []) bs)) 0 :=
    foldl_congr_fn _ _ pa (fun c ia _ => hStep_eq_max a bs pb hb hpb c ia) 0
  rw [hfold]
  set g : ℕ → α := fun ia => minDistSq (a.getD ia []) bs with hg
  apply le_antisymm
  · rcases foldl_maxg_attained g pa 0 with h | h
    · rw [h]
      obtain hm := listMax_mem (a.map (fun p => minDistSq p bs)) (by simpa using ha)
      obtain ⟨p0, hp0, he0⟩ := List.mem_map.mp hm
      unfold dirHausdorffSq
      rw [← he0]
      exact minDistSq_nonneg p0 bs
    · obtain ⟨ia, hia, he⟩ := h
      rw [he]
      apply le_listMax
      exact List.mem_map.mpr ⟨a.getD ia [], getD_mem_of_lt [] a ia ((hpa ia).mp hia), rfl⟩
  · obtain hm := listMax_mem (a.map (fun p => minDistSq p bs)) (by simpa using ha)
    obtain ⟨p0, hp0, he0⟩ := List.mem_map.mp hm
    obtain ⟨j0, hj0, hgd⟩ := mem_imp_getD [] a p0 hp0
    unfold dirHausdorffSq
    rw [← he0, ← hgd]
    exact foldl_maxg_ge_mem g pa 0 j0 ((hpa j0).mpr hj0)

/-- C1: for non-empty trajectories of equal point dimensionality, with the
two shuffled traversal orders being permutations of the index ranges,
`hausdorffDistance` returns the directed Hausdorff distance from `a` to
`bs`: the square root of the max over points of `a` of the min over points
of `bs` of the squared Euclidean distance. -/
theorem hausdorff_directed_correct (a bs : List (Pt ℚ)) (pa pb : List ℕ) (k : ℕ)
    (ha : a ≠ []) (hb : bs ≠ [])
    (hdim : ∀ p ∈ a ++ bs, p.length = k)
    (hpa : List.Perm pa (List.range a.length))
    (hpb : List.Perm pb (List.range bs.length)) :
    hausdorffSq a bs pa pb = Except.ok (dirHausdorffSq a bs) ∧
    hausdorffDistance a bs pa pb =
      Except.ok (Real.sqrt ((dirHausdorffSq a bs : ℚ) : ℝ)) := by
  have hca : ∀ i, i ∈ pa ↔ i < a.length :=
    fun i => (hpa.mem_iff).trans List.mem_range
  have hcb : ∀ j, j ∈ pb ↔ j < bs.length :=
    fun j => (hpb.mem_iff).trans List.mem_range
  have h := hausdorffSq_eq_spec a bs pa pb ha hb hca hcb
  refine ⟨h, ?_⟩
  unfold hausdorffDistance
  rw [h]
  rfl

/-- C1 witness: scenario 2 of the spec, `A = [(0,0),(1,0)]`,
`B = [(0,1),(1,1)]`, shuffled orders `[1,0]` and `[0,1]`. -/
theorem hausdorff_directed_correct_witness :
    ([[(0 : ℚ), 0], [1, 0]] : List (Pt ℚ)) ≠ [] ∧
    ([[(0 : ℚ), 1], [1, 1]] : List (Pt ℚ)) ≠ [] ∧
    (∀ p ∈ ([[(0 : ℚ), 0], [1, 0]] : List (Pt ℚ)) ++ [[(0 : ℚ), 1], [1, 1]],
      p.length = 2) ∧
    List.Perm [1, 0] (List.range ([[(0 : ℚ), 0], [1, 0]] : List (Pt ℚ)).length) ∧
    List.Perm [0, 1] (List.range ([[(0 : ℚ), 1], [1, 1]] : List (Pt ℚ)).length) ∧
    hausdorffSq [[(0 : ℚ), 0], [1, 0]] [[(0 : ℚ), 1], [1, 1]] [1, 0] [0, 1] =
      Except.ok (dirHausdorffSq [[(0 : ℚ), 0], [1, 0]] [[(0 : ℚ), 1], [1, 1]]) := by
  refine ⟨by decide, by decide, by decide, by decide, by decide, ?_⟩
  exact (hausdorff_directed_correct [[(0 : ℚ), 0], [1, 0]] [[(0 : ℚ), 1], [1, 1]]
    [1, 0] [0, 1] 2 (by decide) (by decide) (by decide) (by decide) (by decide)).1

/-- C6: the final scalar of `hausdorffDistance` does not depend on which
permutations are used as the shuffled traversal orders: the pruning only
changes the amount of work, never the outcome. -/
theorem hausdorff_shuffle_independent (a bs : List (Pt α))
    (pa pb pa2 pb2 : List ℕ) (k : ℕ)
    (ha : a ≠ []) (hb : bs ≠ [])
    (hdim : ∀ p ∈ a ++ bs, p.length = k)
    (hpa : List.Perm pa (List.range a.length))
    (hpb : List.Perm pb (List.range bs.length))
    (hpa2 : List.Perm pa2 (List.range a.length))
    (hpb2 : List.Perm pb2 (List.range bs.length)) :
    hausdorffSq a bs pa pb = hausdorffSq a bs pa2 pb2 := by
  rw [hausdorffSq_eq_spec a bs pa pb ha hb
      (fun i => (hpa.mem_iff).trans List.mem_range)
      (fun j => (hpb.mem_iff).trans List.mem_range),
    hausdorffSq_eq_spec a bs pa2 pb2 ha hb
      (fun i => (hpa2.mem_iff).trans List.mem_range)
      (fun j => (hpb2.mem_iff).trans List.mem_range)]

/-- C6 witness: two different pairs of shuffled orders on scenario 2's
trajectories give the same result. -/
theorem hausdorff_shuffle_independent_witness :
    ([[(0 : ℚ), 0], [1, 0]] : List (Pt ℚ)) ≠ [] ∧
    ([[(0 : ℚ), 1], [1, 1]] : List (Pt ℚ)) ≠ [] ∧
    (∀ p ∈ ([[(0 : ℚ), 0], [1, 0]] : List (Pt ℚ)) ++ [[(0 : ℚ), 1], [1, 1]],
      p.length = 2) ∧
    hausdorffSq [[(0 : ℚ), 0], [1, 0]] [[(0 : ℚ), 1], [1, 1]] [0, 1] [0, 1] =
      hausdorffSq [[(0 : ℚ), 0], [1, 0]] [[(0 : ℚ), 1], [1, 1]] [1, 0] [1, 0] := by
  refine ⟨by decide, by decide, by decide, ?_⟩
  exact hausdorff_shuffle_independent [[(0 : ℚ), 0], [1, 0]] [[(0 : ℚ), 1], [1, 1]]
    [0, 1] [0, 1] [1, 0] [1, 0] 2
    (by decide) (by decide) (by decide) (by decide) (by decide) (by decide) (by decide)

/-- C7: `hausdorffDistance` raises the runtime error exactly when one of
its two input trajectories is empty; in that case no scalar is produced,
and with both inputs non-empty it returns a scalar normally. -/
theorem hausdorff_error_iff_empty :
    ∀ (a bs : List (Pt α)) (pa pb : List ℕ),
      ((∃ e, hausdorffSq a bs pa pb = Except.error e) ↔ (a = [] ∨ bs = [])) ∧
      ((∃ v, hausdorffSq a bs pa pb = Except.ok v) ↔ ¬(a = [] ∨ bs = [])) := by
  intro a bs pa pb
  by_cases h : a = [] ∨ bs = []
  · constructor
    · exact iff_of_true
        ⟨"One of the vectors passed to hausdorffDistance is empty.",
         by simp [hausdorffSq, h]⟩ h
    · constructor
      · rintro ⟨v, hv⟩
        simp [hausdorffSq, h] at hv
      · intro hc; exact absurd h hc
  · constructor
    · constructor
      · rintro ⟨e, he⟩
        simp [hausdorffSq, h] at he
      · intro hc; exact absurd hc h
    · exact iff_of_true ⟨pa.foldl (hStep a bs pb) 0, by simp [hausdorffSq, h]⟩ h

instance {ε β : Type} [DecidableEq ε] [DecidableEq β] : DecidableEq (Except ε β) :=
  fun x y =>
  match x, y with
  | Except.error a, Except.error b =>
    if h : a = b then isTrue (by subst h; rfl)
    else isFalse (by intro he; injection he; exact h (by assumption))
  | Except.error _, Except.ok _ => isFalse (fun he => Except.noConfusion he)
  | Except.ok _, Except.error _ => isFalse (fun he => Except.noConfusion he)
  | Except.ok a, Except.ok b =>
    if h : a = b then isTrue (by subst h; rfl)
    else isFalse (by intro he; injection he; exact h (by assumption))

/-- C8 counterexample: the Euclidean point-distance primitive has no
dimensionality check.  A 2-D point compared against a 3-D point yields the
numeric value `0` — `√0 = 0` — with no error of any kind, and the
Hausdorff entry point runs to a normal scalar on such mismatched input. -/
theorem distance_metric_no_dim_error_cx :
    ([(0 : ℤ), 0] : Pt ℤ).length ≠ ([(0 : ℤ), 0, 0] : Pt ℤ).length ∧
    sqDistM [(0 : ℤ), 0] [(0 : ℤ), 0, 0] = 0 ∧
    distanceMetric [(0 : ℚ), 0] [(0 : ℚ), 0, 0] = 0 ∧
    hausdorffSq [[(0 : ℤ), 0]] [[(0 : ℤ), 0, 0]] [0] [0] = Except.ok 0 := by
  refine ⟨by decide, by decide, ?_, by decide⟩
  unfold distanceMetric
  rw [show sqDistM [(0 : ℚ), 0] [(0 : ℚ), 0, 0] = 0 from by
    norm_num [sqDistM, List.range_succ]]
  simp

/-- C8 amended: the primitive rejects nothing.  Its result is a
non-negative number determined by the first point's dimensionality alone:
it reads exactly the coordinates `0 .. a.size()-1` of the second point
(reads past the second point's end are out of bounds in the C++ —
modelled as `0` — never a raised validation error). -/
theorem distance_metric_reads_first_dim (a b c : Pt α)
    (h : ∀ idx, idx < a.length → b.getD idx 0 = c.getD idx 0) :
    sqDistM a b = sqDistM a c ∧ 0 ≤ sqDistM a b := by
  constructor
  · unfold sqDistM
    apply foldl_congr_fn
    intro acc x hx
    rw [h x (List.mem_range.mp hx)]
  · exact sqDistM_nonneg a b

/-- C8 amended witness: a 2-D point against a 3-D point — the result only
depends on the first two coordinates of the second point. -/
theorem distance_metric_reads_first_dim_witness :
    (∀ idx, idx < ([(0 : ℤ), 0] : Pt ℤ).length →
      ([(1 : ℤ), 1, 1] : Pt ℤ).getD idx 0 = ([(1 : ℤ), 1, 7] : Pt ℤ).getD idx 0) ∧
    sqDistM [(0 : ℤ), 0] [(1 : ℤ), 1, 1] = sqDistM [(0 : ℤ), 0] [(1 : ℤ), 1, 7] ∧
    0 ≤ sqDistM [(0 : ℤ), 0] [(1 : ℤ), 1, 1] := by
  refine ⟨by decide, ?_, ?_⟩
  · exact (distance_metric_reads_first_dim [(0 : ℤ), 0] [(1 : ℤ), 1, 1]
      [(1 : ℤ), 1, 7] (by decide)).1
  · exact (distance_metric_reads_first_dim [(0 : ℤ), 0] [(1 : ℤ), 1, 1]
      [(1 : ℤ), 1, 7] (by decide)).2

/-- C9: on `A = B = [(0,0),(1,0),(2,0)]` the Hausdorff entry point does
return `0`, but the Fréchet pipeline does not return `0`: every core
diagonal distance of the self-comparison is `0`, which is also the unset
sentinel of the banded matrix, so the row scan
`while (distanceMatrix[i][j] == 0) j++;` never finds a nonzero cell in row
1 and runs past the end of the row (out of bounds — the model's `none`). -/
theorem frechet_self_zero_collision :
    (frechetDistance [[(0 : ℤ), 0], [1, 0], [2, 0]] [[(0 : ℤ), 0], [1, 0], [2, 0]]).2
      = none ∧
    (computeDistanceMatrix [[(0 : ℤ), 0], [1, 0], [2, 0]]
      [[(0 : ℤ), 0], [1, 0], [2, 0]]).2.2 = 0 ∧
    hausdorffSq [[(0 : ℤ), 0], [1, 0], [2, 0]] [[(0 : ℤ), 0], [1, 0], [2, 0]]
      [0, 1, 2] [0, 1, 2] = Except.ok 0 ∧
    dirHausdorffSq [[(0 : ℤ), 0], [1, 0], [2, 0]] [[(0 : ℤ), 0], [1, 0], [2, 0]] = 0 := by
  exact ⟨by decide, by decide, by decide, by decide⟩

/-- C10: `frechetDistance` receives the trajectories by reference and the
swap inside `computeDistanceMatrix` is visible to the caller: after the
call the two trajectory objects are exchanged exactly when the first was
strictly shorter, and untouched otherwise. -/
theorem frechet_swaps_by_reference :
    ∀ (l1 l2 : List (Pt α)),
      (frechetDistance l1 l2).1 =
        if l1.length < l2.length then (l2, l1) else (l1, l2) := by
  intro l1 l2
  rfl

/-- C4: the band expansion described by the spec never happens.  On
`l1 = [(0),(10),(1),(10)]`, `l2 = [(0),(10)]` the core diagonal passes
through `(1,0)` (set, nonzero) and `diagMax` is the squared value `100`;
the cell `(2,0)` just below the core diagonal in column 0 has squared
distance `1 < diagMax`, so the claimed column expansion would store it —
but the matrix keeps `0` (unset) there: the upper-right `while` guard
`(j < m || d <= diagMax) && j < jMin` is false on entry at every row
(`jMin` never exceeds the entry column `j = i`), and the lower-left
`do/while` body runs exactly once per column, touching only `(j,j)`. -/
theorem band_expansion_never_runs :
    ((computeDistanceMatrix [[(0 : ℤ)], [10], [1], [10]] [[(0 : ℤ)], [10]]).2.1) 1 0 ≠ 0 ∧
    sqd [[(0 : ℤ)], [10], [1], [10]] [[(0 : ℤ)], [10]] 2 0 = 1 ∧
    (1 : ℤ) < (computeDistanceMatrix [[(0 : ℤ)], [10], [1], [10]] [[(0 : ℤ)], [10]]).2.2 ∧
    ((computeDistanceMatrix [[(0 : ℤ)], [10], [1], [10]] [[(0 : ℤ)], [10]]).2.1) 2 0 = 0 := by
  exact ⟨by decide, by decide, by decide, by decide⟩

/-! ## Characterizing `computeDistanceMatrix` -/

theorem foldl_updG_max_split (g : ℕ → ℕ) (v : ℕ → α) :
    ∀ (L : List ℕ) (dm0 : ℕ → ℕ → α) (c0 : α),
      L.foldl (fun s i => (updG s.1 i (g i) (v i), max (v i) s.2)) (dm0, c0) =
        (L.foldl (fun d i => updG d i (g i) (v i)) dm0,
         L.foldl (fun c i => max (v i) c) c0) := by
  intro L
  induction L with
  | nil => intro dm0 c0; rfl
  | cons t rest ih => intro dm0 c0; simpa using ih (updG dm0 t (g t) (v t)) (max (v t) c0)

theorem foldl_updG_lookup (g : ℕ → ℕ) (v : ℕ → α) :
    ∀ (L : List ℕ) (dm0 : ℕ → ℕ → α) (x y : ℕ),
      (L.foldl (fun d i => updG d i (g i) (v i)) dm0) x y =
        if x ∈ L ∧ y = g x then v x else dm0 x y := by
  intro L
  induction L with
  | nil => intro dm0 x y; simp
  | cons t rest ih =>
    intro dm0 x y
    rw [List.foldl_cons, ih]
    by_cases h1 : x ∈ rest ∧ y = g x
    · rw [if_pos h1, if_pos ⟨List.mem_cons_of_mem t h1.1, h1.2⟩]
    · rw [if_neg h1]
      unfold updG
      by_cases h2 : x = t ∧ y = g t
      · have hy : y = g x := by rw [h2.1]; exact h2.2
        rw [if_pos h2, if_pos ⟨h2.1 ▸ List.mem_cons_self t rest, hy⟩, h2.1]
      · rw [if_neg h2]
        have hno : ¬(x ∈ t :: rest ∧ y = g x) := by
          rintro ⟨hx, hy⟩
          rcases List.mem_cons.mp hx with he | hm
          · exact h2 ⟨he, he ▸ hy⟩
          · exact h1 ⟨hm, hy⟩
        rw [if_neg hno]

theorem foldl_updG_cond_lookup (c : ℕ → Prop) [DecidablePred c] (v : ℕ → α) :
    ∀ (L : List ℕ) (dm0 : ℕ → ℕ → α) (x y : ℕ),
      (L.foldl (fun d j => if c j then updG d j j (v j) else d) dm0) x y =
        if x ∈ L ∧ c x ∧ y = x then v x else dm0 x y := by
  intro L
  induction L with
  | nil => intro dm0 x y; simp
  | cons t rest ih =>
    intro dm0 x y
    rw [List.foldl_cons, ih]
    by_cases h1 : x ∈ rest ∧ c x ∧ y = x
    · rw [if_pos h1, if_pos ⟨List.mem_cons_of_mem t h1.1, h1.2⟩]
    · rw [if_neg h1]
      by_cases hct : c t
      · rw [if_pos hct]
        unfold updG
        by_cases h2 : x = t ∧ y = t
        · have hxy : y = x := by rw [h2.1]; exact h2.2
          rw [if_pos h2, if_pos ⟨h2.1 ▸ List.mem_cons_self t rest, h2.1 ▸ hct, hxy⟩, h2.1]
        · rw [if_neg h2]
          have hno : ¬(x ∈ t :: rest ∧ c x ∧ y = x) := by
            rintro ⟨hx, hcx, hy⟩
            rcases List.mem_cons.mp hx with he | hm
            · exact h2 ⟨he, he ▸ hy⟩
            · exact h1 ⟨hm, hcx, hy⟩
          rw [if_neg hno]
      · rw [if_neg hct]
        have hno : ¬(x ∈ t :: rest ∧ c x ∧ y = x) := by
          rintro ⟨hx, hcx, hy⟩
          rcases List.mem_cons.mp hx with he | hm
          · exact hct (he ▸ hcx)
          · exact h1 ⟨hm, hcx, hy⟩
        rw [if_neg hno]

theorem urFill_noop (m : ℕ) (diagMax : α) (sq : ℕ → ℕ → α) (i jMin : ℕ)
    (fuel : ℕ) (dm : ℕ → ℕ → α) (j : ℕ) (d : α) (h : ¬ j < jMin) :
    urFill m diagMax sq i jMin fuel dm j d = (dm, j) := by
  cases fuel with
  | zero => rfl
  | succ f =>
    simp only [urFill]
    rw [if_neg (fun hc => h hc.2)]

theorem urPass_aux (m : ℕ) (diagMax : α) (sq : ℕ → ℕ → α) :
    ∀ (k a : ℕ) (dm0 : ℕ → ℕ → α) (jm : ℕ), jm ≤ a →
      ∃ jm', (List.range' a k).foldl
          (fun s i => urFill m diagMax sq i s.2 (m + s.2 + 1) s.1 i 0) (dm0, jm) =
        (dm0, jm') := by
  intro k
  induction k with
  | zero => intro a dm0 jm _; exact ⟨jm, rfl⟩
  | succ k ih =>
    intro a dm0 jm hj
    rw [List.range'_succ, List.foldl_cons]
    rw [urFill_noop m diagMax sq a jm _ dm0 a 0 (fun hc => absurd hj (not_le.mpr hc))]
    exact ih (a + 1) dm0 a (Nat.le_succ a)

theorem urPass_fst (n m : ℕ) (diagMax : α) (sq : ℕ → ℕ → α) (dm0 : ℕ → ℕ → α) :
    (urPass n m diagMax sq dm0).1 = dm0 := by
  unfold urPass
  rw [List.range_eq_range']
  obtain ⟨jm', he⟩ := urPass_aux m diagMax sq n 0 dm0 0 (le_refl 0)
  rw [he]

theorem llFill_once (n : ℕ) (diagMax : α) (sq : ℕ → ℕ → α) (j iMin : ℕ)
    (fuel : ℕ) (dm : ℕ → ℕ → α) (h : iMin ≤ j) :
    llFill n diagMax sq j iMin (fuel + 1) dm j =
      (if sq j j < diagMax then updG dm j j (sq j j) else dm,
       if sq j j < diagMax then j + 1 else j) := by
  have hi : iMin ≤ (if sq j j < diagMax then j + 1 else j) := by
    by_cases hd : sq j j < diagMax
    · rw [if_pos hd]; exact le_trans h (Nat.le_succ j)
    · rw [if_neg hd]; exact h
  simp only [llFill]
  rw [if_neg (fun hc => absurd hc.2 (not_lt.mpr hi))]

theorem llPass_aux (n : ℕ) (diagMax : α) (sq : ℕ → ℕ → α) :
    ∀ (k a : ℕ) (dm0 : ℕ → ℕ → α) (im : ℕ), im ≤ a →
      ((List.range' a k).foldl
          (fun s j => llFill n diagMax sq j s.2 (n + s.2 + 1) s.1 j) (dm0, im)).1 =
        (List.range' a k).foldl
          (fun d j => if sq j j < diagMax then updG d j j (sq j j) else d) dm0 := by
  intro k
  induction k with
  | zero => intro a dm0 im _; rfl
  | succ k ih =>
    intro a dm0 im hi
    rw [List.range'_succ, List.foldl_cons, List.foldl_cons]
    rw [llFill_once n diagMax sq a im _ dm0 hi]
    apply ih
    by_cases hd : sq a a < diagMax
    · rw [if_pos hd]
    · rw [if_neg hd]; exact Nat.le_succ a

theorem llPass_fst (n m : ℕ) (diagMax : α) (sq : ℕ → ℕ → α) (dm0 : ℕ → ℕ → α) :
    (llPass n m diagMax sq dm0).1 =
      (List.range m).foldl
        (fun d j => if sq j j < diagMax then updG d j j (sq j j) else d) dm0 := by
  unfold llPass
  rw [List.range_eq_range']
  exact llPass_aux n diagMax sq m 0 dm0 0 (le_refl 0)

theorem foldl_maxv_flip (v : ℕ → α) (L : List ℕ) (c : α) :
    L.foldl (fun s i => max (v i) s) c = L.foldl (fun s i => max s (v i)) c :=
  foldl_congr_fn _ _ L (fun acc x _ => max_comm (v x) acc) c

theorem core_shape (n m : ℕ) (h1 : 1 ≤ m) (h2 : m ≤ n) :
    (n % m) * (n / m + 1) + 1 ≤ n := by
  have hq : 1 ≤ n / m := (Nat.one_le_div_iff h1).mpr h2
  have hr : n % m < m := Nat.mod_lt n h1
  have hn : m * (n / m) + n % m = n := Nat.div_add_mod n m
  have h3 : (n % m) * (n / m + 1) = (n % m) * (n / m) + n % m := by ring
  have h5 : (n % m + 1) * (n / m) ≤ m * (n / m) := Nat.mul_le_mul_right _ hr
  have h6 : (n % m) * (n / m) + n / m = (n % m + 1) * (n / m) := by ring
  omega

theorem core_boundary (q r : ℕ) (hq : 1 ≤ q) : (r * (q + 1) - r) / q = r := by
  have h1 : r * (q + 1) - r = r * q := by
    have : r * (q + 1) = r * q + r := by ring
    omega
  rw [h1]
  exact Nat.mul_div_cancel r hq

theorem core_boundary_left (q r : ℕ) : r * (q + 1) / (q + 1) = r :=
  Nat.mul_div_cancel r (Nat.succ_pos q)

theorem computeDistanceMatrixCore_eq (L1 L2 : List (Pt α)) :
    computeDistanceMatrixCore L1 L2 =
      ((List.range L2.length).foldl
         (fun d j =>
           if sqd L1 L2 j j <
               (List.range' ((L1.length % L2.length) * (L1.length / L2.length + 1))
                   (L1.length - (L1.length % L2.length) * (L1.length / L2.length + 1))).foldl
                 (fun c i => max (sqd L1 L2 i ((i - L1.length % L2.length) / (L1.length / L2.length))) c)
                 ((List.range ((L1.length % L2.length) * (L1.length / L2.length + 1) + 1)).foldl
                   (fun c i => max (sqd L1 L2 i (i / (L1.length / L2.length + 1))) c) 0)
             then updG d j j (sqd L1 L2 j j) else d)
         ((List.range' ((L1.length % L2.length) * (L1.length / L2.length + 1))
             (L1.length - (L1.length % L2.length) * (L1.length / L2.length + 1))).foldl
           (fun d i => updG d i ((i - L1.length % L2.length) / (L1.length / L2.length))
             (sqd L1 L2 i ((i - L1.length % L2.length) / (L1.length / L2.length))))
           ((List.range ((L1.length % L2.length) * (L1.length / L2.length + 1) + 1)).foldl
             (fun d i => updG d i (i / (L1.length / L2.length + 1))
               (sqd L1 L2 i (i / (L1.length / L2.length + 1)))) (fun _ _ => 0))),
       (List.range' ((L1.length % L2.length) * (L1.length / L2.length + 1))
           (L1.length - (L1.length % L2.length) * (L1.length / L2.length + 1))).foldl
         (fun c i => max (sqd L1 L2 i ((i - L1.length % L2.length) / (L1.length / L2.length))) c)
         ((List.range ((L1.length % L2.length) * (L1.length / L2.length + 1) + 1)).foldl
           (fun c i => max (sqd L1 L2 i (i / (L1.length / L2.length + 1))) c) 0)) := by
  unfold computeDistanceMatrixCore
  simp only [foldl_updG_max_split, urPass_fst, llPass_fst]

theorem computeDistanceMatrixCore_snd (L1 L2 : List (Pt α)) :
    (computeDistanceMatrixCore L1 L2).2 =
      (List.range' ((L1.length % L2.length) * (L1.length / L2.length + 1))
          (L1.length - (L1.length % L2.length) * (L1.length / L2.length + 1))).foldl
        (fun c i => max (sqd L1 L2 i ((i - L1.length % L2.length) / (L1.length / L2.length))) c)
        ((List.range ((L1.length % L2.length) * (L1.length / L2.length + 1) + 1)).foldl
          (fun c i => max (sqd L1 L2 i (i / (L1.length / L2.length + 1))) c) 0) := by
  rw [computeDistanceMatrixCore_eq]

theorem dm_core_cell (L1 L2 : List (Pt α)) (hm : L2 ≠ []) (hnm : L2.length ≤ L1.length) :
    ∀ i, i < L1.length →
      (computeDistanceMatrixCore L1 L2).1 i
          (coreJ (L1.length / L2.length) (L1.length % L2.length) i) =
        sqd L1 L2 i (coreJ (L1.length / L2.length) (L1.length % L2.length) i) := by
  intro i hi
  have hm1 : 1 ≤ L2.length := List.length_pos.mpr hm
  have hq : 1 ≤ L1.length / L2.length := (Nat.one_le_div_iff hm1).mpr hnm
  have hcb : (L1.length % L2.length) * (L1.length / L2.length + 1) + 1 ≤ L1.length :=
    core_shape _ _ hm1 hnm
  rw [show (computeDistanceMatrixCore L1 L2).1 =
      ((List.range L2.length).foldl
        (fun d j =>
          if sqd L1 L2 j j <
              (List.range' ((L1.length % L2.length) * (L1.length / L2.length + 1))
                  (L1.length - (L1.length % L2.length) * (L1.length / L2.length + 1))).foldl
                (fun c i => max (sqd L1 L2 i ((i - L1.length % L2.length) / (L1.length / L2.length))) c)
                ((List.range ((L1.length % L2.length) * (L1.length / L2.length + 1) + 1)).foldl
                  (fun c i => max (sqd L1 L2 i (i / (L1.length / L2.length + 1))) c) 0)
            then updG d j j (sqd L1 L2 j j) else d)
        ((List.range' ((L1.length % L2.length) * (L1.length / L2.length + 1))
            (L1.length - (L1.length % L2.length) * (L1.length / L2.length + 1))).foldl
          (fun d i => updG d i ((i - L1.length % L2.length) / (L1.length / L2.length))
            (sqd L1 L2 i ((i - L1.length % L2.length) / (L1.length / L2.length))))
          ((List.range ((L1.length % L2.length) * (L1.length / L2.length + 1) + 1)).foldl
            (fun d i => updG d i (i / (L1.length / L2.length + 1))
              (sqd L1 L2 i (i / (L1.length / L2.length + 1)))) (fun _ _ => 0))))
      from by rw [computeDistanceMatrixCore_eq]]
  rw [foldl_updG_cond_lookup, foldl_updG_lookup, foldl_updG_lookup]
  set n := L1.length with hn
  set m := L2.length with hmd
  set q := n / m with hqd
  set r := n % m with hrd
  split_ifs with h1 h2 h3
  · rw [h1.2.2]
  · rw [h2.2]
  · rw [h3.2]
  · exfalso
    by_cases hle : i ≤ r * (q + 1)
    · exact h3 ⟨List.mem_range.mpr (by omega), if_pos hle⟩
    · refine h2 ⟨?_, if_neg hle⟩
      rw [List.mem_range'_1]
      constructor
      · omega
      · rw [Nat.add_sub_cancel' (by omega : r * (q + 1) ≤ n)]
        exact hi

theorem diagMax_ub (L1 L2 : List (Pt α)) (hm : L2 ≠ []) (hnm : L2.length ≤ L1.length) :
    ∀ i, i < L1.length →
      sqd L1 L2 i (coreJ (L1.length / L2.length) (L1.length % L2.length) i) ≤
        (computeDistanceMatrixCore L1 L2).2 := by
  intro i hi
  have hm1 : 1 ≤ L2.length := List.length_pos.mpr hm
  have hcb : (L1.length % L2.length) * (L1.length / L2.length + 1) + 1 ≤ L1.length :=
    core_shape _ _ hm1 hnm
  rw [computeDistanceMatrixCore_snd, foldl_maxv_flip, foldl_maxv_flip]
  set n := L1.length with hn
  set m := L2.length with hmd
  set q := n / m with hqd
  set r := n % m with hrd
  by_cases hle : i ≤ r * (q + 1)
  · rw [show coreJ q r i = i / (q + 1) from if_pos hle]
    exact le_trans
      (foldl_maxg_ge_mem (fun t => sqd L1 L2 t (t / (q + 1)))
        (List.range (r * (q + 1) + 1)) 0 i (List.mem_range.mpr (by omega)))
      (foldl_maxg_ge_init (fun t => sqd L1 L2 t ((t - r) / q)) _ _)
  · rw [show coreJ q r i = (i - r) / q from if_neg hle]
    refine foldl_maxg_ge_mem (fun t => sqd L1 L2 t ((t - r) / q)) _ _ i ?_
    rw [List.mem_range'_1]
    constructor
    · omega
    · rw [Nat.add_sub_cancel' (by omega : r * (q + 1) ≤ n)]
      exact hi

theorem diagMax_attained (L1 L2 : List (Pt α)) (hm : L2 ≠ [])
    (hnm : L2.length ≤ L1.length) :
    ∃ i, i < L1.length ∧
      (computeDistanceMatrixCore L1 L2).2 =
        sqd L1 L2 i (coreJ (L1.length / L2.length) (L1.length % L2.length) i) := by
  have hm1 : 1 ≤ L2.length := List.length_pos.mpr hm
  have hq : 1 ≤ L1.length / L2.length := (Nat.one_le_div_iff hm1).mpr hnm
  have hcb : (L1.length % L2.length) * (L1.length / L2.length + 1) + 1 ≤ L1.length :=
    core_shape _ _ hm1 hnm
  have hub := diagMax_ub L1 L2 hm hnm
  rw [computeDistanceMatrixCore_snd, foldl_maxv_flip, foldl_maxv_flip] at hub ⊢
  set n := L1.length with hn
  set m := L2.length with hmd
  set q := n / m with hqd
  set r := n % m with hrd
  rcases foldl_maxg_attained
      (fun i => sqd L1 L2 i ((i - r) / q)) (List.range' (r * (q + 1)) (n - r * (q + 1)))
      ((List.range (r * (q + 1) + 1)).foldl
        (fun c i => max c (sqd L1 L2 i (i / (q + 1)))) 0) with h2 | h2
  · rw [h2] at hub ⊢
    rcases foldl_maxg_attained
        (fun i => sqd L1 L2 i (i / (q + 1))) (List.range (r * (q + 1) + 1)) 0 with h1 | h1
    · -- diagMax is 0: then the core distance at row 0 is squeezed to 0
      rw [h1] at hub ⊢
      refine ⟨0, by omega, ?_⟩
      have hub0 := hub 0 (by omega)
      have hge := sqDistM_nonneg (L1.getD 0 []) (L2.getD (coreJ q r 0) [])
      exact le_antisymm hge hub0
    · obtain ⟨i, hiL, he⟩ := h1
      have hile : i ≤ r * (q + 1) := by
        have := List.mem_range.mp hiL
        omega
      refine ⟨i, by omega, ?_⟩
      rw [he, show coreJ q r i = i / (q + 1) from if_pos hile]
  · obtain ⟨i, hiL, he⟩ := h2
    rw [List.mem_range'_1, Nat.add_sub_cancel' (by omega : r * (q + 1) ≤ n)] at hiL
    refine ⟨i, hiL.2, ?_⟩
    rw [he]
    by_cases heq : i = r * (q + 1)
    · rw [show coreJ q r i = i / (q + 1) from if_pos (le_of_eq heq)]
      have hg2 : (i - r) / q = r := by rw [heq]; exact core_boundary q r hq
      have hg1 : i / (q + 1) = r := by rw [heq]; exact core_boundary_left q r
      rw [hg1, hg2]
    · have hgt : ¬ i ≤ r * (q + 1) := by omega
      rw [show coreJ q r i = (i - r) / q from if_neg hgt]

/-- C3: with both trajectories non-empty (so `n ≥ m ≥ 1` after the internal
swap), `computeDistanceMatrix` fills the core diagonal: for `q = ⌊n/m⌋`,
`r = n mod m`, every row `i < n` holds, at column `coreJ q r i`
(`⌊i/(q+1)⌋` for `i ≤ r(q+1)`, else `⌊(i−r)/q⌋`), the exact squared
Euclidean distance between point `i` of the longer trajectory and point
`coreJ q r i` of the shorter one, and the returned `diagMax` is the
maximum of those core-diagonal distances; via `√`, the matrix cell carries
the exact Euclidean distance `distanceMetric` and `√diagMax` is the
maximum Euclidean core-diagonal distance. -/
theorem core_diagonal_correct (l1 l2 : List (Pt ℚ)) (L1 L2 : List (Pt ℚ))
    (dm : ℕ → ℕ → ℚ) (dMax : ℚ)
    (h1 : l1 ≠ []) (h2 : l2 ≠ [])
    (hP : computeDistanceMatrix l1 l2 = ((L1, L2), (dm, dMax))) :
    (∀ i, i < L1.length →
        dm i (coreJ (L1.length / L2.length) (L1.length % L2.length) i) =
          sqd L1 L2 i (coreJ (L1.length / L2.length) (L1.length % L2.length) i)) ∧
    (∀ i, i < L1.length →
        sqd L1 L2 i (coreJ (L1.length / L2.length) (L1.length % L2.length) i) ≤ dMax) ∧
    (∃ i, i < L1.length ∧
        dMax = sqd L1 L2 i (coreJ (L1.length / L2.length) (L1.length % L2.length) i)) ∧
    (∀ i, i < L1.length →
        Real.sqrt ((dm i (coreJ (L1.length / L2.length) (L1.length % L2.length) i) : ℚ) : ℝ) =
          distanceMetric (L1.getD i [])
            (L2.getD (coreJ (L1.length / L2.length) (L1.length % L2.length) i) [])) ∧
    (∀ i, i < L1.length →
        distanceMetric (L1.getD i [])
            (L2.getD (coreJ (L1.length / L2.length) (L1.length % L2.length) i) []) ≤
          Real.sqrt ((dMax : ℚ) : ℝ)) ∧
    (∃ i, i < L1.length ∧
        Real.sqrt ((dMax : ℚ) : ℝ) =
          distanceMetric (L1.getD i [])
            (L2.getD (coreJ (L1.length / L2.length) (L1.length % L2.length) i) [])) := by
  have hsw : swapIf l1 l2 = (L1, L2) := congrArg Prod.fst hP
  have hc : computeDistanceMatrixCore L1 L2 = (dm, dMax) := by
    have h := congrArg Prod.snd hP
    simp only [computeDistanceMatrix] at h
    rw [hsw] at h
    exact h
  have hm : L2 ≠ [] ∧ L2.length ≤ L1.length := by
    unfold swapIf at hsw
    by_cases hlt : l1.length < l2.length
    · rw [if_pos hlt] at hsw
      injection hsw with ha hb
      constructor
      · rw [← hb]; exact h1
      · rw [← ha, ← hb]; exact le_of_lt hlt
    · rw [if_neg hlt] at hsw
      injection hsw with ha hb
      constructor
      · rw [← hb]; exact h2
      · rw [← ha, ← hb]; exact not_lt.mp hlt
  have hA := dm_core_cell L1 L2 hm.1 hm.2
  have hB := diagMax_ub L1 L2 hm.1 hm.2
  have hC := diagMax_attained L1 L2 hm.1 hm.2
  rw [hc] at hA hB hC
  simp only at hA hB hC
  refine ⟨hA, hB, hC, ?_, ?_, ?_⟩
  · intro i hi
    rw [hA i hi]
    rfl
  · intro i hi
    have := hB i hi
    show Real.sqrt ((sqDistM (L1.getD i []) _ : ℚ) : ℝ) ≤ _
    apply Real.sqrt_le_sqrt
    exact_mod_cast this
  · obtain ⟨i, hi, he⟩ := hC
    exact ⟨i, hi, by rw [he]; rfl⟩

/-- C3 witness: `l1 = [(0),(3)]`, `l2 = [(7)]` — both non-empty, `n = 2`,
`m = 1` after no swap. -/
theorem core_diagonal_correct_witness :
    ∃ L1 L2 dm dMax,
      ([[(0 : ℚ)], [3]] : List (Pt ℚ)) ≠ [] ∧ ([[(7 : ℚ)]] : List (Pt ℚ)) ≠ [] ∧
      computeDistanceMatrix [[(0 : ℚ)], [3]] [[(7 : ℚ)]] = ((L1, L2), (dm, dMax)) ∧
      (∀ i, i < L1.length →
        dm i (coreJ (L1.length / L2.length) (L1.length % L2.length) i) =
          sqd L1 L2 i (coreJ (L1.length / L2.length) (L1.length % L2.length) i)) := by
  refine ⟨_, _, _, _, by decide, by decide, rfl, ?_⟩
  exact (core_diagonal_correct [[(0 : ℚ)], [3]] [[(7 : ℚ)]] _ _ _ _
    (by decide) (by decide) rfl).1

/-! ## Swap-invariance of the Fréchet pipeline -/

theorem dmCore_symm (a b : List (Pt α)) (k : ℕ) (hlen : a.length = b.length)
    (hda : ∀ p ∈ a, p.length = k) (hdb : ∀ p ∈ b, p.length = k) :
    computeDistanceMatrixCore a b = computeDistanceMatrixCore b a := by
  have hdiag : ∀ i, sqd a b i i = sqd b a i i := by
    intro i
    unfold sqd
    by_cases hi : i < a.length
    · have h1 : (a.getD i []).length = k := hda _ (getD_mem_of_lt [] a i hi)
      have h2 : (b.getD i []).length = k := hdb _ (getD_mem_of_lt [] b i (hlen ▸ hi))
      exact sqDistM_symm _ _ (by rw [h1, h2])
    · have h1 : a.getD i [] = [] := List.getD_eq_default a [] (not_lt.mp hi)
      have h2 : b.getD i [] = [] := List.getD_eq_default b [] (by omega)
      rw [h1, h2]
  rcases Nat.eq_zero_or_pos b.length with hb0 | hbpos
  · have ha0 : a = [] := List.length_eq_zero.mp (by omega)
    have hb0' : b = [] := List.length_eq_zero.mp hb0
    rw [ha0, hb0']
  · rw [computeDistanceMatrixCore_eq, computeDistanceMatrixCore_eq, hlen,
      Nat.mod_self, Nat.div_self hbpos]
    simp only [Nat.zero_mul, Nat.sub_zero, Nat.div_one, zero_add]
    have ec1 : (List.range 1).foldl
          (fun c i => max (sqd a b i (i / (1 + 1))) c) (0 : α) =
        (List.range 1).foldl (fun c i => max (sqd b a i (i / (1 + 1))) c) 0 := by
      refine foldl_congr_fn _ _ _ (fun acc x hx => ?_) 0
      rw [List.mem_range] at hx
      have hx0 : x = 0 := by omega
      subst hx0
      rw [show (0 : ℕ) / (1 + 1) = 0 from rfl]
      rw [hdiag 0]
    have edm1 : (List.range 1).foldl
          (fun d i => updG d i (i / (1 + 1)) (sqd a b i (i / (1 + 1))))
          (fun _ _ => (0 : α)) =
        (List.range 1).foldl
          (fun d i => updG d i (i / (1 + 1)) (sqd b a i (i / (1 + 1))))
          (fun _ _ => (0 : α)) := by
      refine foldl_congr_fn _ _ _ (fun acc x hx => ?_) _
      rw [List.mem_range] at hx
      have hx0 : x = 0 := by omega
      subst hx0
      rw [show (0 : ℕ) / (1 + 1) = 0 from rfl]
      rw [hdiag 0]
    rw [ec1, edm1]
    have ec2 : ∀ c0 : α, (List.range' 0 b.length).foldl
          (fun c i => max (sqd a b i i) c) c0 =
        (List.range' 0 b.length).foldl (fun c i => max (sqd b a i i) c) c0 :=
      fun c0 => foldl_congr_fn _ _ _ (fun acc x _ => by rw [hdiag x]) c0
    have edm2 : ∀ d0 : ℕ → ℕ → α, (List.range' 0 b.length).foldl
          (fun d i => updG d i i (sqd a b i i)) d0 =
        (List.range' 0 b.length).foldl (fun d i => updG d i i (sqd b a i i)) d0 :=
      fun d0 => foldl_congr_fn _ _ _ (fun acc x _ => by rw [hdiag x]) d0
    rw [ec2, edm2]
    have ell : ∀ (C : α) (d0 : ℕ → ℕ → α), (List.range b.length).foldl
          (fun d j => if sqd a b j j < C then updG d j j (sqd a b j j) else d) d0 =
        (List.range b.length).foldl
          (fun d j => if sqd b a j j < C then updG d j j (sqd b a j j) else d) d0 :=
      fun C d0 => foldl_congr_fn _ _ _ (fun acc x _ => by rw [hdiag x]) d0
    rw [ell]

theorem frechetCore_symm (a b : List (Pt α)) (k : ℕ) (hlen : a.length = b.length)
    (hda : ∀ p ∈ a, p.length = k) (hdb : ∀ p ∈ b, p.length = k) :
    frechetCore a b = frechetCore b a := by
  unfold frechetCore
  rw [dmCore_symm a b k hlen hda hdb, hlen]

/-- C5: the end-to-end Fréchet result is swap-invariant for trajectories of
equal point dimensionality: when the first trajectory is shorter, the two
are swapped internally before any matrix work, and for equal lengths the
whole computation is symmetric in the two trajectories. -/
theorem frechet_swap_invariant (l1 l2 : List (Pt α)) (k : ℕ)
    (hd1 : ∀ p ∈ l1, p.length = k) (hd2 : ∀ p ∈ l2, p.length = k) :
    (frechetDistance l1 l2).2 = (frechetDistance l2 l1).2 := by
  rcases lt_trichotomy l1.length l2.length with hlt | heq | hgt
  · unfold frechetDistance computeFrechetMatrixG swapIf
    rw [if_pos hlt, if_neg (not_lt.mpr (le_of_lt hlt))]
  · unfold frechetDistance computeFrechetMatrixG swapIf
    rw [if_neg (not_lt.mpr (le_of_eq heq.symm)), if_neg (not_lt.mpr (le_of_eq heq))]
    simp only
    rw [frechetCore_symm l1 l2 k heq hd1 hd2, heq]
  · unfold frechetDistance computeFrechetMatrixG swapIf
    rw [if_neg (not_lt.mpr (le_of_lt hgt)), if_pos hgt]

/-- C5 witness: `l1 = [(0),(2)]`, `l2 = [(1),(3)]`, 1-D points. -/
theorem frechet_swap_invariant_witness :
    (∀ p ∈ ([[(0 : ℚ)], [2]] : List (Pt ℚ)), p.length = 1) ∧
    (∀ p ∈ ([[(1 : ℚ)], [3]] : List (Pt ℚ)), p.length = 1) ∧
    (frechetDistance [[(0 : ℚ)], [2]] [[(1 : ℚ)], [3]]).2 =
      (frechetDistance [[(1 : ℚ)], [3]] [[(0 : ℚ)], [2]]).2 := by
  refine ⟨by decide, by decide, ?_⟩
  exact frechet_swap_invariant [[(0 : ℚ)], [2]] [[(1 : ℚ)], [3]] 1 (by decide) (by decide)

/-! ## The row scan of `computeFrechetMatrix` satisfies the coupling
recurrence at every cell it visits -/

theorem updG_same {β : Type} (f : ℕ → ℕ → β) (i j : ℕ) (v : β) :
    updG f i j v i j = v := if_pos ⟨rfl, rfl⟩

theorem updG_ne {β : Type} (f : ℕ → ℕ → β) (i j x y : ℕ) (v : β)
    (h : ¬(x = i ∧ y = j)) : updG f i j v x y = f x y := if_neg h

theorem minPredD_congr (dMat : ℕ → ℕ → α) (fm fm2 : ℕ → ℕ → Option α) (i j : ℕ)
    (h1 : 0 < i → 0 < j → fm2 (i - 1) (j - 1) = fm (i - 1) (j - 1))
    (h2 : 0 < i → fm2 (i - 1) j = fm (i - 1) j)
    (h3 : 0 < j → fm2 i (j - 1) = fm i (j - 1)) :
    minPredD dMat fm2 i j = minPredD dMat fm i j := by
  simp only [minPredD]
  have e1 : (if 0 < i ∧ 0 < j ∧ dMat (i - 1) (j - 1) ≠ 0
        then fm2 (i - 1) (j - 1) else none) =
      (if 0 < i ∧ 0 < j ∧ dMat (i - 1) (j - 1) ≠ 0
        then fm (i - 1) (j - 1) else none) := by
    by_cases c : 0 < i ∧ 0 < j ∧ dMat (i - 1) (j - 1) ≠ 0
    · rw [if_pos c, if_pos c, h1 c.1 c.2.1]
    · rw [if_neg c, if_neg c]
  rw [e1]
  have e2 : ∀ x : Option α,
      (if 0 < i ∧ dMat (i - 1) j ≠ 0 then optMin x (fm2 (i - 1) j) else x) =
      (if 0 < i ∧ dMat (i - 1) j ≠ 0 then optMin x (fm (i - 1) j) else x) := by
    intro x
    by_cases c : 0 < i ∧ dMat (i - 1) j ≠ 0
    · rw [if_pos c, if_pos c, h2 c.1]
    · rw [if_neg c, if_neg c]
  rw [e2]
  by_cases c : 0 < j ∧ dMat i (j - 1) ≠ 0
  · rw [if_pos c, if_pos c, h3 c.1]
  · rw [if_neg c, if_neg c]

theorem fillRow_inv (dMat : ℕ → ℕ → α) (m s : ℕ) (hs : 1 ≤ s) :
    ∀ (fuel : ℕ) (fm : ℕ → ℕ → Option α) (j : ℕ) (vis : List (ℕ × ℕ)),
      (fm 0 0 = some (dMat 0 0)) →
      (∀ p ∈ vis, (1 ≤ p.1 ∧ (p.1 < s ∨ (p.1 = s ∧ p.2 < j))) ∧ dMat p.1 p.2 ≠ 0 ∧
        fm p.1 p.2 = optMaxD (minPredD dMat fm p.1 p.2) (dMat p.1 p.2)) →
      ((fillRow dMat m s fuel fm j vis).1 0 0 = some (dMat 0 0)) ∧
      (j ≤ (fillRow dMat m s fuel fm j vis).2.1) ∧
      (∀ p ∈ (fillRow dMat m s fuel fm j vis).2.2,
        (1 ≤ p.1 ∧ (p.1 < s ∨ (p.1 = s ∧ p.2 < (fillRow dMat m s fuel fm j vis).2.1))) ∧
        dMat p.1 p.2 ≠ 0 ∧
        (fillRow dMat m s fuel fm j vis).1 p.1 p.2 =
          optMaxD (minPredD dMat ((fillRow dMat m s fuel fm j vis).1) p.1 p.2)
            (dMat p.1 p.2)) := by
  intro fuel
  induction fuel with
  | zero =>
    intro fm j vis hbase hvis
    exact ⟨hbase, le_refl j, hvis⟩
  | succ f ih =>
    intro fm j vis hbase hvis
    by_cases hg : dMat s j ≠ 0 ∧ j < m
    · have hstep : fillRow dMat m s (f + 1) fm j vis =
          fillRow dMat m s f
            (updG fm s j (optMaxD (minPredD dMat fm s j) (dMat s j))) (j + 1)
            (vis ++ [(s, j)]) := by
        simp only [fillRow]
        rw [if_pos hg]
      rw [hstep]
      set fm2 := updG fm s j (optMaxD (minPredD dMat fm s j) (dMat s j)) with hfm2
      -- the write leaves row 0 alone
      have hbase2 : fm2 0 0 = some (dMat 0 0) := by
        rw [hfm2, updG_ne fm s j 0 0 _ (fun hc => by omega)]
        exact hbase
      -- preservation of the recurrence at previously visited cells,
      -- and validity at the newly written cell
      have hvis2 : ∀ p ∈ vis ++ [(s, j)],
          (1 ≤ p.1 ∧ (p.1 < s ∨ (p.1 = s ∧ p.2 < j + 1))) ∧ dMat p.1 p.2 ≠ 0 ∧
          fm2 p.1 p.2 = optMaxD (minPredD dMat fm2 p.1 p.2) (dMat p.1 p.2) := by
        intro p hp
        rcases List.mem_append.mp hp with hold | hnew
        · obtain ⟨⟨hp1, hord⟩, hdz, heq⟩ := hvis p hold
          have hne : ¬(p.1 = s ∧ p.2 = j) := by
            rcases hord with hlt | ⟨hes, hltj⟩
            · exact fun hc => by omega
            · exact fun hc => by omega
          have hval : fm2 p.1 p.2 = fm p.1 p.2 := updG_ne fm s j p.1 p.2 _ hne
          have hmp : minPredD dMat fm2 p.1 p.2 = minPredD dMat fm p.1 p.2 := by
            apply minPredD_congr
            · intro hi hj
              apply updG_ne
              rcases hord with hlt | ⟨hes, hltj⟩
              · exact fun hc => by omega
              · exact fun hc => by omega
            · intro hi
              apply updG_ne
              rcases hord with hlt | ⟨hes, hltj⟩
              · exact fun hc => by omega
              · exact fun hc => by omega
            · intro hj
              apply updG_ne
              rcases hord with hlt | ⟨hes, hltj⟩
              · exact fun hc => by omega
              · exact fun hc => by omega
          refine ⟨⟨hp1, ?_⟩, hdz, ?_⟩
          · rcases hord with hlt | ⟨hes, hltj⟩
            · exact Or.inl hlt
            · exact Or.inr ⟨hes, by omega⟩
          · rw [hval, hmp]
            exact heq
        · have hps : p = (s, j) := by simpa using hnew
          subst hps
          refine ⟨⟨hs, Or.inr ⟨rfl, by omega⟩⟩, hg.1, ?_⟩
          have hval : fm2 s j = optMaxD (minPredD dMat fm s j) (dMat s j) :=
            updG_same fm s j _
          have hmp : minPredD dMat fm2 s j = minPredD dMat fm s j := by
            apply minPredD_congr
            · intro hi hj
              exact updG_ne fm s j _ _ _ (fun hc => by omega)
            · intro hi
              exact updG_ne fm s j _ _ _ (fun hc => by omega)
            · intro hj
              exact updG_ne fm s j _ _ _ (fun hc => by omega)
          rw [hval, hmp]
      obtain ⟨r1, r2, r3⟩ := ih fm2 (j + 1) (vis ++ [(s, j)]) hbase2 hvis2
      exact ⟨r1, le_trans (Nat.le_succ j) r2, r3⟩
    · have hstep : fillRow dMat m s (f + 1) fm j vis = (fm, j, vis) := by
        simp only [fillRow]
        rw [if_neg hg]
      rw [hstep]
      exact ⟨hbase, le_refl j, hvis⟩

theorem foldl_frowStep_none (dMat : ℕ → ℕ → α) (m : ℕ) :
    ∀ L : List ℕ, L.foldl (frowStep dMat m) none = none := by
  intro L
  induction L with
  | nil => rfl
  | cons t r ih =>
    rw [List.foldl_cons]
    exact ih

theorem ffold_inv (dMat : ℕ → ℕ → α) (m : ℕ) :
    ∀ (k s : ℕ) (st : (ℕ → ℕ → Option α) × ℕ × List (ℕ × ℕ)), 1 ≤ s →
      (st.1 0 0 = some (dMat 0 0)) →
      (∀ p ∈ st.2.2, (1 ≤ p.1 ∧ p.1 < s) ∧ dMat p.1 p.2 ≠ 0 ∧
        st.1 p.1 p.2 = optMaxD (minPredD dMat st.1 p.1 p.2) (dMat p.1 p.2)) →
      ∀ st2, (List.range' s k).foldl (frowStep dMat m) (some st) = some st2 →
        (st2.1 0 0 = some (dMat 0 0)) ∧
        (∀ p ∈ st2.2.2, (1 ≤ p.1 ∧ p.1 < s + k) ∧ dMat p.1 p.2 ≠ 0 ∧
          st2.1 p.1 p.2 = optMaxD (minPredD dMat st2.1 p.1 p.2) (dMat p.1 p.2)) := by
  intro k
  induction k with
  | zero =>
    intro s st hs hbase hvis st2 he
    have : st = st2 := by simpa using he
    subst this
    exact ⟨hbase, fun p hp => (hvis p hp)⟩
  | succ kk ih =>
    intro s st hs hbase hvis st2 he
    obtain ⟨fm, jMin, vis⟩ := st
    rw [List.range'_succ, List.foldl_cons] at he
    rcases hskip : skipZeros dMat s jMin (m + 1) with _ | j
    · rw [show frowStep dMat m (some (fm, jMin, vis)) s = none from by
        simp only [frowStep]; rw [hskip]] at he
      rw [foldl_frowStep_none dMat m _] at he
      exact absurd he (by simp)
    · rw [show frowStep dMat m (some (fm, jMin, vis)) s =
          some ((fillRow dMat m s (m + 1) fm j vis).1, j,
                (fillRow dMat m s (m + 1) fm j vis).2.2) from by
        simp only [frowStep]; rw [hskip]] at he
      obtain ⟨r1, r2, r3⟩ := fillRow_inv dMat m s hs (m + 1) fm j vis hbase
        (fun p hp => by
          obtain ⟨⟨hp1, hp2⟩, hdz, heq⟩ := hvis p hp
          exact ⟨⟨hp1, Or.inl hp2⟩, hdz, heq⟩)
      have hnext := ih (s + 1)
        ((fillRow dMat m s (m + 1) fm j vis).1, j,
         (fillRow dMat m s (m + 1) fm j vis).2.2)
        (by omega) r1
        (fun p hp => by
          obtain ⟨⟨hp1, hp2⟩, hdz, heq⟩ := r3 p hp
          refine ⟨⟨hp1, ?_⟩, hdz, heq⟩
          rcases hp2 with hlt | ⟨hes, _⟩
          · omega
          · omega)
        st2 he
      refine ⟨hnext.1, fun p hp => ?_⟩
      obtain ⟨⟨hp1, hp2⟩, hdz, heq⟩ := hnext.2 p hp
      exact ⟨⟨hp1, by omega⟩, hdz, heq⟩

/-- C2 (amended): for every input on which the sweep completes, the
coupling matrix built by `computeFrechetMatrix` satisfies
`coupling(0,0) = distance(0,0)`, and *at every cell the row scan visits*
(the contiguous run of nonzero distance cells of each row `i ≥ 1`,
starting at the first nonzero column at or after the previous row's start)
`coupling(i,j) = max(distance(i,j), m)` where `m` is the minimum of the
couplings of those of the three predecessors whose distance cell is
nonzero, `m` being the `numeric_limits::max()-1` sentinel (`none`) when no
predecessor's distance cell is nonzero — in which case `coupling(i,j)` is
the sentinel, not `distance(i,j)`; cells the scan does not visit (among
them nonzero cells separated from the run by a zero gap) keep coupling
`0`.  `frechetDistance` returns `coupling(n-1, m-1)`, the sizes read after
any swap. -/
theorem frechet_rowscan_recurrence (l1 l2 : List (Pt α)) (fm : ℕ → ℕ → Option α)
    (vis : List (ℕ × ℕ))
    (h : (computeFrechetMatrixG l1 l2).2 = some (fm, vis)) :
    (fm 0 0 = some ((computeDistanceMatrix l1 l2).2.1 0 0)) ∧
    (∀ p ∈ vis, (computeDistanceMatrix l1 l2).2.1 p.1 p.2 ≠ 0 ∧
      fm p.1 p.2 =
        optMaxD (minPredD ((computeDistanceMatrix l1 l2).2.1) fm p.1 p.2)
          ((computeDistanceMatrix l1 l2).2.1 p.1 p.2)) ∧
    ((frechetDistance l1 l2).2 =
      some (fm ((computeFrechetMatrixG l1 l2).1.1.length - 1)
        ((computeFrechetMatrixG l1 l2).1.2.length - 1))) := by
  have hterm : (frechetDistance l1 l2).2 =
      some (fm ((computeFrechetMatrixG l1 l2).1.1.length - 1)
        ((computeFrechetMatrixG l1 l2).1.2.length - 1)) := by
    simp only [frechetDistance]
    rw [h]
    rfl
  set L1 := (swapIf l1 l2).1 with hL1
  set L2 := (swapIf l1 l2).2 with hL2
  have hcore : (computeFrechetMatrixG l1 l2).2 = frechetCore L1 L2 := rfl
  rw [hcore] at h
  unfold frechetCore at h
  simp only at h
  rcases hfold : (List.range' 1 (L1.length - 1)).foldl
      (frowStep (computeDistanceMatrixCore L1 L2).1 L2.length)
      (some
        (updG (fun _ _ => some (0 : α)) 0 0
          (some ((computeDistanceMatrixCore L1 L2).1 0 0)), 0, [])) with _ | st
  · rw [hfold] at h
    exact absurd h (by simp)
  · rw [hfold] at h
    simp only [Option.map_some'] at h
    have hfm : st.1 = fm := congrArg Prod.fst (Option.some_inj.mp h)
    have hvis : st.2.2 = vis := congrArg Prod.snd (Option.some_inj.mp h)
    have hdm : (computeDistanceMatrix l1 l2).2.1 = (computeDistanceMatrixCore L1 L2).1 := rfl
    obtain ⟨r1, r2⟩ := ffold_inv (computeDistanceMatrixCore L1 L2).1 L2.length
      (L1.length - 1) 1
      (updG (fun _ _ => some (0 : α)) 0 0
        (some ((computeDistanceMatrixCore L1 L2).1 0 0)), 0, [])
      (le_refl 1)
      (updG_same (fun _ _ => some (0 : α)) 0 0
        (some ((computeDistanceMatrixCore L1 L2).1 0 0)))
      (by intro p hp; simp at hp)
      st hfold
    rw [hfm] at r1 r2
    rw [hvis] at r2
    refine ⟨by rw [hdm]; exact r1, fun p hp => ?_, hterm⟩
    obtain ⟨_, hdz, heq⟩ := r2 p hp
    rw [hdm]
    exact ⟨hdz, heq⟩

/-- C2 counterexample, on `l1 = [(2),(4),(6),(22),(24),(26),(42),(44),(46)]`,
`l2 = [(2),(20),(5)]` (1-D integer points; the sweep completes).  Two parts
of the claim fail on the code.  First, cell `(1,0)` is visited, its
distance cell is nonzero, and none of its predecessors has a nonzero
distance cell (`distance(0,0) = 0`, coincident first points), yet
`coupling(1,0)` is the `max()-1` sentinel (`none`) and *not*
`distance(1,0)` as the claim says the default forces.  Second, cell
`(2,2)` has a nonzero ("set") distance cell but sits after a zero gap in
row 2, so the row scan never visits it: its coupling stays `0` and the
claimed recurrence equation is false at `(2,2)`. -/
theorem frechet_recurrence_cx :
    ∃ fm vis,
      (computeFrechetMatrixG
          [[(2 : ℤ)], [4], [6], [22], [24], [26], [42], [44], [46]]
          [[(2 : ℤ)], [20], [5]]).2 = some (fm, vis) ∧
      (computeDistanceMatrix
          [[(2 : ℤ)], [4], [6], [22], [24], [26], [42], [44], [46]]
          [[(2 : ℤ)], [20], [5]]).2.1 1 0 ≠ 0 ∧
      (1, 0) ∈ vis ∧
      minPredD ((computeDistanceMatrix
          [[(2 : ℤ)], [4], [6], [22], [24], [26], [42], [44], [46]]
          [[(2 : ℤ)], [20], [5]]).2.1) fm 1 0 = none ∧
      fm 1 0 = none ∧
      fm 1 0 ≠ some ((computeDistanceMatrix
          [[(2 : ℤ)], [4], [6], [22], [24], [26], [42], [44], [46]]
          [[(2 : ℤ)], [20], [5]]).2.1 1 0) ∧
      (computeDistanceMatrix
          [[(2 : ℤ)], [4], [6], [22], [24], [26], [42], [44], [46]]
          [[(2 : ℤ)], [20], [5]]).2.1 2 2 ≠ 0 ∧
      ¬ (2, 2) ∈ vis ∧
      fm 2 2 = some 0 ∧
      fm 2 2 ≠ optMaxD
        (minPredD ((computeDistanceMatrix
            [[(2 : ℤ)], [4], [6], [22], [24], [26], [42], [44], [46]]
            [[(2 : ℤ)], [20], [5]]).2.1) fm 2 2)
        ((computeDistanceMatrix
            [[(2 : ℤ)], [4], [6], [22], [24], [26], [42], [44], [46]]
            [[(2 : ℤ)], [20], [5]]).2.1 2 2) := by
  refine ⟨_, _, rfl, by decide, by decide, by decide, by decide, by decide, by decide,
    by decide, by decide, by decide⟩

/-- C2 amended witness: the small completing run `l1 = [(0),(2)]`,
`l2 = [(1),(3)]`. -/
theorem frechet_rowscan_recurrence_witness :
    ∃ fm vis,
      (computeFrechetMatrixG [[(0 : ℤ)], [2]] [[(1 : ℤ)], [3]]).2 = some (fm, vis) ∧
      fm 0 0 = some ((computeDistanceMatrix [[(0 : ℤ)], [2]] [[(1 : ℤ)], [3]]).2.1 0 0) := by
  have hsome : (computeFrechetMatrixG [[(0 : ℤ)], [2]] [[(1 : ℤ)], [3]]).2.isSome = true :=
    rfl
  rcases he : (computeFrechetMatrixG [[(0 : ℤ)], [2]] [[(1 : ℤ)], [3]]).2 with _ | s
  · rw [he] at hsome
    exact absurd hsome (by simp)
  · obtain ⟨fm, vis⟩ := s
    exact ⟨fm, vis, rfl,
      (frechet_rowscan_recurrence [[(0 : ℤ)], [2]] [[(1 : ℤ)], [3]] fm vis he).1⟩
